import Mathlib

set_option maxRecDepth 8000

/-!
Verification of the sqlstruct field-resolution and row-mapping core.

The development shallowly embeds the Go sources:
* `typefields.go` (type introspection: `field`, `byName`, `byIndex`,
  `parseTag`, `typeFields`) and
* `sqlstruct.go` (`Session`, `scan`, `Scan`).

Go's runtime types are modelled by `Typ` together with an environment
`Env` mapping the names of struct types to their declared fields; a named
type that is absent from the environment behaves as a non-struct kind
(e.g. `int`, `string`).  Pointer types are unnamed, matching the code's
`ft.Name() == "" && ft.Kind() == reflect.Ptr` test.
-/

namespace Sqlstruct

/-- A Go type: a named type or a pointer type.  Struct-ness of a named type
is decided by the environment. -/
inductive Typ where
  | named (n : String) : Typ
  | ptr (t : Typ) : Typ
deriving DecidableEq, Repr

/-- `reflect.Type.Name()`: pointer types are unnamed. -/
def Typ.name : Typ → String
  | .named n => n
  | .ptr _ => ""

/-- One declared field of a struct type, as the reflect-based walker sees it:
declared name, package path (nonempty for unexported fields), anonymous
(embedded) flag, the value of the `sql` struct tag, and the field's type. -/
structure StructField where
  fname : String
  pkgPath : String
  anonymous : Bool
  sqlTag : String
  typ : Typ
deriving DecidableEq, Repr

/-- The set of struct type declarations in scope. -/
abbrev Env := List (String × List StructField)

def envLookup (env : Env) (n : String) : Option (List StructField) :=
  Option.map (fun p => p.2) (env.find? (fun p => p.1 == n))

/-- Declared fields of a struct type; `none` when the type is not a struct. -/
def structFields (env : Env) : Typ → Option (List StructField)
  | .named n => envLookup env n
  | .ptr _ => none

/-- `t.Kind() == reflect.Struct`. -/
def isStruct (env : Env) (t : Typ) : Bool := (structFields env t).isSome

/-- The `field` record of typefields.go: containing struct name, bound
(column) name, declared field name, explicit-tag flag, index path from the
root, and the field's type. -/
structure Field where
  ctx : String
  name : String
  fname : String
  tag : Bool
  index : List Nat
  typ : Typ
deriving DecidableEq, Repr

/-- Characters before the first comma. -/
def upToComma : List Char → List Char
  | [] => []
  | c :: cs => if c = ',' then [] else c :: upToComma cs

/-- `parseTag`: the part of the tag before the first comma (the whole tag
when there is no comma). -/
def parseTagName (tag : String) : String :=
  String.mk (upToComma tag.data)

/-- `ft.Name() == "" && ft.Kind() == reflect.Ptr`: follow one level of
pointer indirection (pointer types are unnamed in this model). -/
def followPtr : Typ → Typ
  | .ptr e => e
  | t => t

/-- State of one level of the breadth-first walk in `typeFields`:
types already visited, fields found so far, the queue for the next level
and the per-level scheduling counter `nextCount`. -/
structure LevelState where
  visited : List Typ
  fields : List Field
  next : List Field
  nextCount : Typ → Nat

/-- The body of `typeFields`' inner loop over the fields of one struct:
skip unexported fields and fields tagged `-`; otherwise either record a
leaf `field` (duplicated when the containing type was scheduled more than
once at this level) or schedule an embedded struct for the next level. -/
def stepField (env : Env) (count : Typ → Nat) (parent : Field) (i : Nat)
    (sf : StructField) (st : LevelState) : LevelState :=
  if sf.pkgPath ≠ "" then st
  else if sf.sqlTag = "-" then st
  else
    let name := parseTagName sf.sqlTag
    let index := parent.index ++ [i]
    let ft := followPtr sf.typ
    if name ≠ "" ∨ sf.anonymous = false ∨ isStruct env ft = false then
      let finalName := if name = "" then sf.fname else name
      let newF : Field := ⟨parent.typ.name, finalName, sf.fname, decide (name ≠ ""), index, ft⟩
      let fields1 := st.fields ++ [newF]
      let fields2 := if count parent.typ > 1 then fields1 ++ [newF] else fields1
      ⟨st.visited, fields2, st.next, st.nextCount⟩
    else
      let c := st.nextCount ft + 1
      let nc := fun u => if u = ft then c else st.nextCount u
      let next1 := if c = 1 then st.next ++ [⟨"", ft.name, "", false, index, ft⟩] else st.next
      ⟨st.visited, st.fields, next1, nc⟩

/-- `for i := 0; i < f.typ.NumField(); i++ { ... }`. -/
def scanStructFields (env : Env) (count : Typ → Nat) (parent : Field) :
    Nat → List StructField → LevelState → LevelState
  | _, [], st => st
  | i, sf :: rest, st =>
      scanStructFields env count parent (i + 1) rest (stepField env count parent i sf st)

/-- Processing one queue entry of the current level: skip types already
visited at an earlier point, otherwise mark visited and scan the fields. -/
def stepItem (env : Env) (count : Typ → Nat) (st : LevelState) (f : Field) : LevelState :=
  if f.typ ∈ st.visited then st
  else
    let st1 : LevelState := ⟨f.typ :: st.visited, st.fields, st.next, st.nextCount⟩
    match structFields env f.typ with
    | none => st1
    | some sfs => scanStructFields env count f 0 sfs st1

/-- The `for len(next) > 0` level loop of `typeFields`.  Fuel bounds the
number of levels; each level that continues the walk visits at least one
type not seen before, so `env.length + 3` levels always suffice. -/
def typeFieldsLevels (env : Env) :
    Nat → List Typ → (Typ → Nat) → List Field → List Field → List Field
  | 0, _, _, fields, _ => fields
  | fuel + 1, visited, nextCount, fields, next =>
    match next with
    | [] => fields
    | _ :: _ =>
      let st := next.foldl (stepItem env nextCount) ⟨visited, fields, [], fun _ => 0⟩
      typeFieldsLevels env fuel st.visited st.nextCount st.fields st.next

/-- The breadth-first collection phase of `typeFields`, before sorting and
conflict resolution.  The initial queue holds the zero `field` value with
only `typ` set, as in `next := []field{{typ: t}}`. -/
def collectFields (env : Env) (t : Typ) : List Field :=
  typeFieldsLevels env (env.length + 3) [] (fun _ => 0) [] [⟨"", "", "", false, [], t⟩]

/-- Lexicographic comparison of character lists; since UTF-8 byte order
agrees with code-point order, this is Go's `<` on strings. -/
def charListLt : List Char → List Char → Bool
  | [], [] => false
  | [], _ :: _ => true
  | _ :: _, [] => false
  | c :: cs, d :: ds => if c = d then charListLt cs ds else decide (c < d)

/-- Go's `<` on strings. -/
def strLt (a b : String) : Bool := charListLt a.data b.data

/-- `byIndex.Less` restricted to the index slices. -/
def idxLess : List Nat → List Nat → Bool
  | [], ys => decide (0 < ys.length)
  | _ :: _, [] => false
  | x :: xs, y :: ys => if x ≠ y then decide (x < y) else idxLess xs ys

/-- `byName.Less`: by bound name, then by index length, then explicitly
tagged entries first, then by index sequence. -/
def byNameLess (a b : Field) : Bool :=
  if a.name ≠ b.name then strLt a.name b.name
  else if a.index.length ≠ b.index.length then decide (a.index.length < b.index.length)
  else if a.tag ≠ b.tag then a.tag
  else idxLess a.index b.index

/-- The non-strict order used to realise `sort.Sort(byName(fields))`. -/
def byNameLe (a b : Field) : Prop := byNameLess b a = false

instance : DecidableRel byNameLe := fun a b => Bool.decEq (byNameLess b a) false

/-- The non-strict order used to realise `sort.Sort(byIndex(fields))`. -/
def byIndexLe (a b : Field) : Prop := idxLess b.index a.index = false

instance : DecidableRel byIndexLe := fun a b => Bool.decEq (idxLess b.index a.index) false

/-- `sort.Sort(byName(fields))`.  `sort.Sort` is unstable, but `byName.Less`
distinguishes any two entries that are not fully identical on the compared
data, so every sorted rearrangement is equal; we pick insertion sort. -/
def sortByName (l : List Field) : List Field := List.insertionSort byNameLe l

/-- `sort.Sort(byIndex(fields))`. -/
def sortByIndex (l : List Field) : List Field := List.insertionSort byIndexLe l

/-- The conflict-resolution pass of `typeFields` (one step): Go keeps a
running `name` and the output slice `out`; a field starting a new name run
is appended; otherwise the last output entry is removed when it has the
same name and is untagged or the current field is tagged. -/
def collapseStep (st : String × List Field) (f : Field) : String × List Field :=
  if f.name ≠ st.1 then (f.name, st.2 ++ [f])
  else
    match st.2.getLast? with
    | some g => if g.name = st.1 ∧ (g.tag = false ∨ f.tag = true) then (st.1, st.2.dropLast) else st
    | none => st

/-- The conflict-resolution pass of `typeFields` over the name-sorted list. -/
def collapse (l : List Field) : List Field := (l.foldl collapseStep ("", [])).2

/-- `typeFields`: collect, sort by name, remove annihilating collisions,
sort by index. -/
def typeFields (env : Env) (t : Typ) : List Field :=
  sortByIndex (collapse (sortByName (collectFields env t)))

/-! ## Values and the row mapper (sqlstruct.go) -/

/-- A Go value: integer and string scalars, the raw-bytes discard cell, and
struct values as the list of their field values in declaration order. -/
inductive GoVal where
  | vint (n : Int) : GoVal
  | vstr (s : String) : GoVal
  | vraw : GoVal
  | strukt (elems : List GoVal) : GoVal

/-- Read the value at a structural index path (`FieldByIndex`). -/
def getPath : List Nat → GoVal → Option GoVal
  | [], v => some v
  | i :: p, .strukt elems =>
    match elems[i]? with
    | some e => getPath p e
    | none => none
  | _ :: _, _ => none

/-- Replace the value at a structural index path; out-of-range or non-struct
positions leave the value unchanged (resolved paths are always in range). -/
def setPath : List Nat → GoVal → GoVal → GoVal
  | [], _, nv => nv
  | i :: p, .strukt elems, nv =>
    match elems[i]? with
    | some e => .strukt (elems.set i (setPath p e nv))
    | none => .strukt elems
  | _ :: _, v, _ => v

/-- The external row source (the `Rows` interface): the result of its
`Columns()` call, the error its `Scan(...)` call would return, and the
per-column data of the current row. -/
structure RowSource where
  columnsRes : Except String (List String)
  scanErr : Option String
  rowVals : List GoVal

/-- The `finfos` name lookup built by `scan`: Go map insertion means the
last field with a given name wins. -/
def findField (fields : List Field) (n : String) : Option Field :=
  (fields.filter (fun f => f.name = n)).getLast?

/-- Per-column scan targets, in column order: the bound field's index path,
or `none` for the `sql.RawBytes` discard target of an unmapped column. -/
def buildTargets (fields : List Field) (cols : List String) : List (Option (List Nat)) :=
  cols.map (fun c => Option.map (fun f => f.index) (findField fields c))

/-- Apply the row source's per-target writes to the destination struct
value; discard targets write nothing into the destination. -/
def applyWrites (v : GoVal) (ws : List (Option (List Nat) × GoVal)) : GoVal :=
  ws.foldl (fun acc w =>
    match w.1 with
    | some p => setPath p acc w.2
    | none => acc) v

/-- The `scan` function (sqlstruct.go): list columns (propagating the error),
build targets, let the row source populate them (propagating the error). -/
def scan (destv : GoVal) (fields : List Field) (rows : RowSource) : Except String GoVal :=
  match rows.columnsRes with
  | .error e => .error e
  | .ok cols =>
    match rows.scanErr with
    | some e => .error e
    | none => .ok (applyWrites destv ((buildTargets fields cols).zip rows.rowVals))

/-- The destination argument's pointee: a nil pointer has none. -/
inductive DestVal where
  | nil : DestVal
  | val (v : GoVal) : DestVal

/-- Outcome of a top-level `Scan` call: the precondition panic
(`dest must be pointer to struct`), the reflect panic on indirecting a nil
pointer, a returned error, or normal completion with the updated pointee. -/
inductive ScanOutcome where
  | panicPrecond : ScanOutcome
  | panicNilDeref : ScanOutcome
  | err (e : String) : ScanOutcome
  | ok (d : DestVal) : ScanOutcome

/-- `typ.Kind() == reflect.Ptr && typ.Elem().Kind() == reflect.Struct`. -/
def isPtrToStruct (env : Env) : Typ → Bool
  | .ptr t => isStruct env t
  | .named _ => false

/-- `typ.Elem()` of a pointer type. -/
def elemTyp : Typ → Typ
  | .ptr t => t
  | t => t

/-- The package-level `Scan` (and the identical check in `Session.Scan`):
panic unless the destination's type is pointer-to-struct (nil-ness of the
pointer is not checked), then resolve fields and run `scan`.  Building a
field target through a nil pointer panics inside reflect before the row
source's populate call; with no bound targets a nil destination scans. -/
def goScan (env : Env) (dt : Typ) (dv : DestVal) (rows : RowSource) : ScanOutcome :=
  if isPtrToStruct env dt = false then .panicPrecond
  else
    let fields := typeFields env (elemTyp dt)
    match rows.columnsRes with
    | .error e => .err e
    | .ok cols =>
      let tgts := buildTargets fields cols
      match dv with
      | .nil =>
        if tgts.any (fun t => t.isSome) then .panicNilDeref
        else
          match rows.scanErr with
          | some e => .err e
          | none => .ok .nil
      | .val v =>
        match rows.scanErr with
        | some e => .err e
        | none => .ok (.val (applyWrites v (tgts.zip rows.rowVals)))

/-! ## The per-type cache (`Session`) -/

/-- The `finfos` map of a `Session`, keyed by the destination struct type. -/
abbrev Session := List (Typ × List Field)

def sessionLookup (s : Session) (t : Typ) : Option (List Field) :=
  Option.map (fun p => p.2) (s.find? (fun p => decide (p.1 = t)))

/-- The cache consultation in `Session.Scan` (lines 69-73): return a stored
FieldSet unchanged, otherwise compute `typeFields`, store and return. -/
def sessionResolve (env : Env) (s : Session) (t : Typ) : List Field × Session :=
  match sessionLookup s t with
  | some fs => (fs, s)
  | none => (typeFields env t, (t, typeFields env t) :: s)

/-! ## Concrete record types used by the scenario claims -/

def intT : Typ := .named "int"
def stringT : Typ := .named "string"

/-- `Base{ID int sql:"id"}` and `Derived{Base; Name string sql:"name"}`. -/
def envD : Env :=
  [("Base", [⟨"ID", "", false, "id", intT⟩]),
   ("Derived", [⟨"Base", "", true, "", Typ.named "Base"⟩, ⟨"Name", "", false, "name", stringT⟩])]

/-! ## Lemmas about path writes -/

/-- Writing at a path leaves reads at any non-overlapping path unchanged. -/
theorem getPath_set_of_disjoint (p : List Nat) :
    ∀ (q : List Nat) (d nv : GoVal), ¬ p <+: q → ¬ q <+: p →
      getPath q (setPath p d nv) = getPath q d := by
  induction p with
  | nil => intro q d nv h1 _; exact absurd List.nil_prefix h1
  | cons i p ih =>
    intro q d nv h1 h2
    cases q with
    | nil => exact absurd List.nil_prefix h2
    | cons j q =>
      cases d with
      | vint n => rfl
      | vstr s => rfl
      | vraw => rfl
      | strukt elems =>
        by_cases hij : i = j
        · subst hij
          have h1' : ¬ p <+: q := fun hp => h1 (List.cons_prefix_cons.mpr ⟨rfl, hp⟩)
          have h2' : ¬ q <+: p := fun hp => h2 (List.cons_prefix_cons.mpr ⟨rfl, hp⟩)
          cases he : elems[i]? with
          | none => simp [setPath, he]
          | some e =>
            have hlen : i < elems.length := by
              by_contra hge
              rw [List.getElem?_eq_none (Nat.le_of_not_lt hge)] at he
              exact nomatch he
            simp [setPath, getPath, he, List.getElem?_set_self hlen, ih q e nv h1' h2']
        · cases he : elems[i]? with
          | none => simp [setPath, he]
          | some e =>
            simp [setPath, getPath, he, List.getElem?_set_ne hij]

/-- A fold of writes at paths all disjoint from `q` leaves the read at `q`
unchanged. -/
theorem applyWrites_frame (q : List Nat) (ws : List (Option (List Nat) × GoVal)) :
    ∀ d : GoVal, (∀ w ∈ ws, ∀ p, w.1 = some p → ¬ p <+: q ∧ ¬ q <+: p) →
      getPath q (applyWrites d ws) = getPath q d := by
  induction ws with
  | nil => intro d _; rfl
  | cons w ws ih =>
    intro d h
    cases hw : w.1 with
    | none =>
      have : applyWrites d (w :: ws) = applyWrites d ws := by
        simp [applyWrites, hw]
      rw [this]
      exact ih d (fun w' hm => h w' (List.mem_cons_of_mem _ hm))
    | some p =>
      have hd := h w (List.mem_cons_self ..) p hw
      have : applyWrites d (w :: ws) = applyWrites (setPath p d w.2) ws := by
        simp [applyWrites, hw]
      rw [this, ih (setPath p d w.2) (fun w' hm => h w' (List.mem_cons_of_mem _ hm)),
        getPath_set_of_disjoint p q d w.2 hd.1 hd.2]

/-- A successful `findField` lookup returns a member of the field list
bound to the requested name. -/
theorem findField_mem {fields : List Field} {n : String} {g : Field}
    (h : findField fields n = some g) : g ∈ fields ∧ g.name = n := by
  unfold findField at h
  have hm := List.mem_of_getLast?_eq_some h
  have := List.mem_filter.mp hm
  exact ⟨this.1, of_decide_eq_true this.2⟩

/-! ## Claim theorems: scenario, cache, row mapper -/

/-- The row source of the §8 scenario: columns `["name","id"]`, row values
`("bob", 7)`. -/
def rowsD : RowSource := ⟨.ok ["name", "id"], none, [.vstr "bob", .vint 7]⟩

/-- A fresh `Derived` value (zero `Base.ID`, empty `Name`). -/
def destD0 : GoVal := .strukt [.strukt [.vint 0], .vstr ""]

/-- The expected `Derived` value after the scenario scan. -/
def destD1 : GoVal := .strukt [.strukt [.vint 7], .vstr "bob"]

/-- C4: resolving `Derived` yields exactly the entries bound to `"id"`
(path `[0,0]`) and `"name"` (path `[1]`), and scanning the row source with
columns `["name","id"]` and values `("bob", 7)` sets `Name` (path `[1]`)
to `"bob"` and `ID` (path `[0,0]`) to `7`, returning no error. -/
theorem base_derived_scenario :
    typeFields envD (.named "Derived") =
      [⟨"Base", "id", "ID", true, [0, 0], intT⟩,
       ⟨"Derived", "name", "Name", true, [1], stringT⟩]
    ∧ goScan envD (.ptr (.named "Derived")) (.val destD0) rowsD = .ok (.val destD1)
    ∧ getPath [1] destD1 = some (.vstr "bob")
    ∧ getPath [0, 0] destD1 = some (.vint 7) :=
  ⟨rfl, rfl, rfl, rfl⟩

/-- C6: resolving a type through a `Session` a second time returns the very
pair (FieldSet and cache) produced by the first request, and a first
request on a fresh session returns exactly `typeFields`; the resolver is a
pure function of the environment and type, so any two uncached resolutions
are definitionally equal. -/
theorem session_resolve_idempotent (env : Env) (s : Session) (t : Typ) :
    sessionResolve env (sessionResolve env s t).2 t = sessionResolve env s t
    ∧ (sessionResolve env ([] : Session) t).1 = typeFields env t := by
  constructor
  · unfold sessionResolve
    cases h : sessionLookup s t with
    | some fs => simp [h]
    | none =>
      have h2 : sessionLookup ((t, typeFields env t) :: s) t = some (typeFields env t) := by
        simp [sessionLookup, List.find?]
      simp [h, h2]
  · simp [sessionResolve, sessionLookup, List.find?]

/-- C7: `scan` returns an error exactly when the row source's column
listing or population does, and it returns that error unmodified; a
reported column with no bound field is paired with the discard target
(`none`) at its position and the scan otherwise proceeds normally. -/
theorem scan_error_passthrough (destv : GoVal) (fields : List Field) (rows : RowSource) :
    (∀ e : String, scan destv fields rows = .error e ↔
        (rows.columnsRes = .error e ∨
          ∃ cols, rows.columnsRes = .ok cols ∧ rows.scanErr = some e))
    ∧ (∀ cols, rows.columnsRes = .ok cols → rows.scanErr = none →
        scan destv fields rows =
          .ok (applyWrites destv ((buildTargets fields cols).zip rows.rowVals)))
    ∧ (∀ (cols : List String) (i : Nat) (c : String), cols[i]? = some c → findField fields c = none →
        (buildTargets fields cols)[i]? = some none) := by
  refine ⟨?_, ?_, ?_⟩
  · intro e
    unfold scan
    cases hc : rows.columnsRes with
    | error e' => simp
    | ok cols =>
      cases hs : rows.scanErr with
      | some e' => simp [hs]
      | none => simp [hs]
  · intro cols hc hs
    unfold scan
    rw [hc, hs]
  · intro cols i c hi hn
    unfold buildTargets
    rw [List.getElem?_map, hi]
    simp [hn]

/-- C9: a successful `scan` leaves every field of the FieldSet whose bound
name is not among the reported columns at its prior value, provided the
FieldSet's paths identify physically disjoint locations for distinct
bound names (the §3 invariant on resolved FieldSets). -/
theorem scan_frame_unmatched_fields (destv : GoVal) (fields : List Field) (rows : RowSource)
    (cols : List String) (v : GoVal) (f : Field)
    (hcols : rows.columnsRes = .ok cols)
    (hok : scan destv fields rows = .ok v)
    (_hmem : f ∈ fields)
    (hnc : f.name ∉ cols)
    (hdisj : ∀ g ∈ fields, g.name ≠ f.name → ¬ g.index <+: f.index ∧ ¬ f.index <+: g.index) :
    getPath f.index v = getPath f.index destv := by
  unfold scan at hok
  rw [hcols] at hok
  cases hse : rows.scanErr with
  | some e => rw [hse] at hok; exact nomatch hok
  | none =>
    rw [hse] at hok
    injection hok with hv
    rw [← hv]
    apply applyWrites_frame
    rintro ⟨t, val⟩ hw p hp
    replace hp : t = some p := hp
    have ht : t ∈ buildTargets fields cols := (List.of_mem_zip hw).1
    unfold buildTargets at ht
    obtain ⟨c, hcmem, hmap⟩ := List.mem_map.mp ht
    rw [hp] at hmap
    cases hg : findField fields c with
    | none => rw [hg] at hmap; exact nomatch hmap
    | some g =>
      rw [hg] at hmap
      injection hmap with hgi
      obtain ⟨hgmem, hgname⟩ := findField_mem hg
      have hne : g.name ≠ f.name := by
        intro hEq
        exact hnc (hEq ▸ hgname ▸ hcmem)
      have hgi' : g.index = p := hgi
      subst hgi'
      exact hdisj g hgmem hne

/-- Witness for C7: at the scenario inputs the success branch of
`scan_error_passthrough` yields the scanned value. -/
theorem scan_error_passthrough_w :
    scan destD0 (typeFields envD (.named "Derived")) rowsD = .ok destD1 :=
  (scan_error_passthrough destD0 (typeFields envD (.named "Derived")) rowsD).2.1
    ["name", "id"] rfl rfl

/-- A row source reporting only the `name` column. -/
def rows9 : RowSource := ⟨.ok ["name"], none, [.vstr "x"]⟩

/-- A `Derived` value with prior contents in both fields. -/
def dest9 : GoVal := .strukt [.strukt [.vint 5], .vstr "old"]

/-- `dest9` after scanning `rows9`: only `Name` changed. -/
def dest9r : GoVal := .strukt [.strukt [.vint 5], .vstr "x"]

/-- Witness for C9: scanning a row without an `id` column leaves the `ID`
field (path `[0,0]`) of the destination unchanged. -/
theorem scan_frame_unmatched_fields_w :
    getPath [0, 0] dest9r = getPath [0, 0] dest9 :=
  scan_frame_unmatched_fields dest9 (typeFields envD (.named "Derived")) rows9 ["name"]
    dest9r ⟨"Base", "id", "ID", true, [0, 0], intT⟩ rfl rfl (by decide) (by decide) (by decide)

/-- A column-less, errorless row source, used to exhibit a nil destination
that passes the precondition check. -/
def rows0 : RowSource := ⟨.ok [], none, []⟩

/-- C8 counterexample: a nil pointer of type `*Derived` is not a non-null
pointer to a struct instance, yet `Scan` raises no precondition panic for
it — with no bound columns the call completes normally.  Only the
destination's type is checked. -/
theorem nil_dest_no_precond_panic :
    goScan envD (.ptr (.named "Derived")) .nil rows0 = .ok .nil
    ∧ goScan envD (.ptr (.named "Derived")) .nil rows0 ≠ .panicPrecond :=
  ⟨rfl, fun h => nomatch h⟩

/-- C8 amended: `Scan` signals the precondition panic (distinct from any
returned row-source error) exactly when the destination argument's type is
not pointer-to-struct; nil-ness of the pointer is not part of the check,
and for a pointer-to-struct destination the scan proceeds. -/
theorem panic_iff_not_ptr_to_struct (env : Env) (dt : Typ) (dv : DestVal) (rows : RowSource) :
    goScan env dt dv rows = .panicPrecond ↔ isPtrToStruct env dt = false := by
  unfold goScan
  by_cases h : isPtrToStruct env dt = false
  · simp [h]
  · rw [if_neg h]
    have htrue : isPtrToStruct env dt = true := by
      cases hb : isPtrToStruct env dt
      · exact absurd hb h
      · rfl
    rw [htrue]
    refine ⟨fun hp => ?_, fun hff => nomatch hff⟩
    exfalso
    rcases hc : rows.columnsRes with e | cols <;> rw [hc] at hp
    · exact nomatch hp
    · cases dv with
      | nil =>
        dsimp at hp
        rcases ha : ((buildTargets (typeFields env (elemTyp dt)) cols).any fun t => t.isSome)
          <;> rw [ha] at hp
        · rcases hs : rows.scanErr with _ | e <;> rw [hs] at hp <;> exact nomatch hp
        · exact nomatch hp
      | val v =>
        dsimp at hp
        rcases hs : rows.scanErr with _ | e <;> rw [hs] at hp <;> exact nomatch hp

/-- C10 (code bug): in the resolved FieldSet for `Derived`, the field
declared directly on the root type (`Name`, bound to `"name"`) carries
context `"Derived"`, the root type's own name — not the empty string the
`field.ctx` comment ("empty for top-level struct") and the spec require;
fields reached through an embedded type do carry the name of their
immediately containing type (`"Base"`). -/
theorem root_ctx_is_root_name :
    (typeFields envD (.named "Derived")).map (fun f => (f.name, f.ctx)) =
      [("id", "Base"), ("name", "Derived")] := rfl

/-! ## Order-theoretic facts about the comparators

`byName.Less` is a strict weak order whose equivalence classes are given by
equality of the compared data (name, index length, tag, index); these facts
make `sortByName` produce a list that is `Sorted` for `byNameLe`. -/

theorem charListLt_asymm : ∀ {xs ys : List Char},
    charListLt xs ys = true → charListLt ys xs = false
  | [], [], h => nomatch h
  | [], _ :: _, _ => rfl
  | _ :: _, [], h => nomatch h
  | c :: cs, d :: ds, h => by
    unfold charListLt at *
    by_cases hcd : c = d
    · subst hcd
      simpa using charListLt_asymm (by simpa using h)
    · have hlt : c < d := by simpa [hcd] using h
      simp [hcd, Ne.symm hcd, not_lt_of_gt hlt]

theorem charListLt_trans : ∀ {xs ys zs : List Char},
    charListLt xs ys = true → charListLt ys zs = true → charListLt xs zs = true
  | [], [], _, h1, _ => nomatch h1
  | [], _ :: _, [], _, h2 => nomatch h2
  | [], _ :: _, _ :: _, _, _ => rfl
  | _ :: _, [], _, h1, _ => nomatch h1
  | _ :: _, _ :: _, [], _, h2 => nomatch h2
  | c :: cs, d :: ds, e :: es, h1, h2 => by
    unfold charListLt at *
    by_cases hcd : c = d <;> by_cases hde : d = e
    · subst hcd; subst hde
      simpa using charListLt_trans (by simpa using h1) (by simpa using h2)
    · subst hcd
      simp [hde] at h2 ⊢
      exact h2
    · subst hde
      simp [hcd] at h1 ⊢
      exact h1
    · have l1 : c < d := by simpa [hcd] using h1
      have l2 : d < e := by simpa [hde] using h2
      have l3 : c < e := lt_trans l1 l2
      simp [ne_of_lt l3, l3]

theorem charListLt_connex : ∀ {xs ys : List Char},
    xs ≠ ys → charListLt xs ys = true ∨ charListLt ys xs = true
  | [], [], h => absurd rfl h
  | [], _ :: _, _ => .inl rfl
  | _ :: _, [], _ => .inr rfl
  | c :: cs, d :: ds, h => by
    unfold charListLt
    by_cases hcd : c = d
    · subst hcd
      have : cs ≠ ds := fun hh => h (hh ▸ rfl)
      simpa using charListLt_connex this
    · rcases lt_or_gt_of_ne hcd with hlt | hgt
      · exact .inl (by simp [hcd, hlt])
      · exact .inr (by simp [Ne.symm hcd, hgt])

theorem str_ext {a b : String} (h : a.data = b.data) : a = b := by
  cases a; cases b; cases h; rfl

theorem strLt_asymm {a b : String} (h : strLt a b = true) : strLt b a = false :=
  charListLt_asymm h

theorem strLt_trans {a b c : String} (h1 : strLt a b = true) (h2 : strLt b c = true) :
    strLt a c = true :=
  charListLt_trans h1 h2

theorem strLt_connex {a b : String} (h : a ≠ b) :
    strLt a b = true ∨ strLt b a = true :=
  charListLt_connex (fun hd => h (str_ext hd))

/-- Nothing is below the empty string. -/
theorem strLt_blank (a : String) : strLt a "" = false := by
  unfold strLt
  cases a.data <;> rfl

theorem idxLess_asymm : ∀ {xs ys : List Nat},
    idxLess xs ys = true → idxLess ys xs = false
  | [], ys, h => by
    cases ys with
    | nil => exact nomatch h
    | cons y ys => rfl
  | _ :: _, [], h => nomatch h
  | x :: xs, y :: ys, h => by
    unfold idxLess at *
    by_cases hxy : x = y
    · subst hxy
      simpa using idxLess_asymm (by simpa using h)
    · have hlt : x < y := by simpa [hxy] using h
      simp [hxy, Ne.symm hxy]
      omega

theorem idxLess_trans : ∀ {xs ys zs : List Nat},
    idxLess xs ys = true → idxLess ys zs = true → idxLess xs zs = true
  | [], [], _, h1, _ => nomatch h1
  | [], _ :: _, [], _, h2 => nomatch h2
  | [], _ :: _, _ :: _, _, _ => by simp [idxLess]
  | _ :: _, [], _, h1, _ => nomatch h1
  | _ :: _, _ :: _, [], _, h2 => nomatch h2
  | x :: xs, y :: ys, z :: zs, h1, h2 => by
    unfold idxLess at *
    by_cases hxy : x = y <;> by_cases hyz : y = z
    · subst hxy; subst hyz
      simpa using idxLess_trans (by simpa using h1) (by simpa using h2)
    · subst hxy
      have l2 : x < z := by simpa [hyz] using h2
      simp [hyz]
      omega
    · subst hyz
      have l1 : x < y := by simpa [hxy] using h1
      simp [hxy]
      omega
    · have l1 : x < y := by simpa [hxy] using h1
      have l2 : y < z := by simpa [hyz] using h2
      have hxz : x ≠ z := by omega
      simp [hxz]
      omega

theorem idxLess_connex : ∀ {xs ys : List Nat},
    xs ≠ ys → idxLess xs ys = true ∨ idxLess ys xs = true
  | [], [], h => absurd rfl h
  | [], _ :: _, _ => .inl (by simp [idxLess])
  | _ :: _, [], _ => .inr (by simp [idxLess])
  | x :: xs, y :: ys, h => by
    unfold idxLess
    by_cases hxy : x = y
    · subst hxy
      have : xs ≠ ys := fun hh => h (hh ▸ rfl)
      simpa using idxLess_connex this
    · rcases Nat.lt_or_ge x y with hlt | hge
      · exact .inl (by simp [hxy, hlt])
      · have hgt : y < x := by omega
        exact .inr (by simp [Ne.symm hxy, hgt])

/-- Evaluate `byName.Less` when the names differ. -/
theorem bn_eval_name {a b : Field} (h : a.name ≠ b.name) :
    byNameLess a b = strLt a.name b.name := by
  unfold byNameLess; rw [if_pos h]

/-- Evaluate `byName.Less` on equal names and different index lengths. -/
theorem bn_eval_len {a b : Field} (h : a.name = b.name)
    (h2 : a.index.length ≠ b.index.length) :
    byNameLess a b = decide (a.index.length < b.index.length) := by
  unfold byNameLess; rw [if_neg (by simp [h]), if_pos h2]

/-- Evaluate `byName.Less` on equal names and lengths, different tags. -/
theorem bn_eval_tag {a b : Field} (h : a.name = b.name)
    (h2 : a.index.length = b.index.length) (h3 : a.tag ≠ b.tag) :
    byNameLess a b = a.tag := by
  unfold byNameLess; rw [if_neg (by simp [h]), if_neg (by simp [h2]), if_pos h3]

/-- Evaluate `byName.Less` when names, lengths and tags all agree. -/
theorem bn_eval_idx {a b : Field} (h : a.name = b.name)
    (h2 : a.index.length = b.index.length) (h3 : a.tag = b.tag) :
    byNameLess a b = idxLess a.index b.index := by
  unfold byNameLess; rw [if_neg (by simp [h]), if_neg (by simp [h2]), if_neg (by simp [h3])]

theorem strLt_irrefl (a : String) : strLt a a = false := by
  cases h : strLt a a
  · rfl
  · rw [strLt_asymm h] at h; exact nomatch h

theorem bnLess_asymm {a b : Field} (h : byNameLess a b = true) : byNameLess b a = false := by
  by_cases h1 : a.name = b.name
  · by_cases h2 : a.index.length = b.index.length
    · by_cases h3 : a.tag = b.tag
      · rw [bn_eval_idx h1 h2 h3] at h
        rw [bn_eval_idx h1.symm h2.symm h3.symm]
        exact idxLess_asymm h
      · rw [bn_eval_tag h1 h2 h3] at h
        rw [bn_eval_tag h1.symm h2.symm (Ne.symm h3)]
        cases hb : b.tag
        · rfl
        · exact absurd (h.trans hb.symm) h3
    · rw [bn_eval_len h1 h2] at h
      rw [bn_eval_len h1.symm (Ne.symm h2)]
      simp at h ⊢
      omega
  · rw [bn_eval_name h1] at h
    rw [bn_eval_name (Ne.symm h1)]
    exact strLt_asymm h

theorem bnLess_trans {a b c : Field} (h1 : byNameLess a b = true)
    (h2 : byNameLess b c = true) : byNameLess a c = true := by
  by_cases hab : a.name = b.name <;> by_cases hbc : b.name = c.name
  ·              
    have hac : a.name = c.name := hab.trans hbc
    by_cases lab : a.index.length = b.index.length <;>
      by_cases lbc : b.index.length = c.index.length
    ·              
      have lac := lab.trans lbc
      by_cases tab : a.tag = b.tag <;> by_cases tbc : b.tag = c.tag
      ·              
        have tac := tab.trans tbc
        rw [bn_eval_idx hab lab tab] at h1
        rw [bn_eval_idx hbc lbc tbc] at h2
        rw [bn_eval_idx hac lac tac]
        exact idxLess_trans h1 h2
      ·              
        rw [bn_eval_tag hbc lbc tbc] at h2
        have tac : a.tag ≠ c.tag := fun hh => tbc (tab.symm.trans hh)
        rw [bn_eval_tag hac lac tac, tab]
        exact h2
      ·              
        rw [bn_eval_tag hab lab tab] at h1
        have tac : a.tag ≠ c.tag := fun hh => tab (hh.trans tbc.symm)
        rw [bn_eval_tag hac lac tac]
        exact h1
      ·              
        rw [bn_eval_tag hab lab tab] at h1
        rw [bn_eval_tag hbc lbc tbc] at h2
        exact absurd (h1.trans h2.symm) tab
    ·              
      rw [bn_eval_len hbc lbc] at h2
      simp at h2
      have lac : a.index.length ≠ c.index.length := by omega
      rw [bn_eval_len hac lac]
      simp
      omega
    ·              
      rw [bn_eval_len hab lab] at h1
      simp at h1
      have lac : a.index.length ≠ c.index.length := by omega
      rw [bn_eval_len hac lac]
      simp
      omega
    ·              
      rw [bn_eval_len hab lab] at h1
      rw [bn_eval_len hbc lbc] at h2
      simp at h1 h2
      have lac : a.index.length ≠ c.index.length := by omega
      rw [bn_eval_len hac lac]
      simp
      omega
  ·              
    have hac : a.name ≠ c.name := fun hh => hbc (hab.symm.trans hh)
    rw [bn_eval_name hbc] at h2
    rw [bn_eval_name hac, hab]
    exact h2
  ·              
    have hac : a.name ≠ c.name := fun hh => hab (hh.trans hbc.symm)
    rw [bn_eval_name hab] at h1
    rw [bn_eval_name hac, ← hbc]
    exact h1
  ·              
    rw [bn_eval_name hab] at h1
    rw [bn_eval_name hbc] at h2
    have h3 := strLt_trans h1 h2
    have hac : a.name ≠ c.name := by
      intro hh
      rw [hh, strLt_irrefl] at h3
      exact nomatch h3
    rw [bn_eval_name hac]
    exact h3

/-- Two fields unordered by `byName.Less` agree on all compared data. -/
theorem bnLess_keys {a b : Field} (hab : byNameLess a b = false)
    (hba : byNameLess b a = false) :
    a.name = b.name ∧ a.index.length = b.index.length ∧ a.tag = b.tag ∧ a.index = b.index := by
  by_cases h1 : a.name = b.name
  · by_cases h2 : a.index.length = b.index.length
    · by_cases h3 : a.tag = b.tag
      · refine ⟨h1, h2, h3, ?_⟩
        rw [bn_eval_idx h1 h2 h3] at hab
        rw [bn_eval_idx h1.symm h2.symm h3.symm] at hba
        by_contra hne
        rcases idxLess_connex hne with hx | hx
        · rw [hab] at hx; exact nomatch hx
        · rw [hba] at hx; exact nomatch hx
      · rw [bn_eval_tag h1 h2 h3] at hab
        rw [bn_eval_tag h1.symm h2.symm (Ne.symm h3)] at hba
        exact absurd (hab.trans hba.symm) h3
    · rw [bn_eval_len h1 h2] at hab
      rw [bn_eval_len h1.symm (Ne.symm h2)] at hba
      simp at hab hba
      omega
  · rw [bn_eval_name h1] at hab
    rw [bn_eval_name (Ne.symm h1)] at hba
    rcases strLt_connex h1 with hx | hx
    · rw [hab] at hx; exact nomatch hx
    · rw [hba] at hx; exact nomatch hx

/-- `byNameLess` only reads the compared data. -/
theorem bnLess_congr {a b : Field} (hn : a.name = b.name) (ht : a.tag = b.tag)
    (hi : a.index = b.index) (c : Field) :
    byNameLess a c = byNameLess b c ∧ byNameLess c a = byNameLess c b := by
  unfold byNameLess
  rw [hn, ht, hi]
  exact ⟨rfl, rfl⟩

instance : IsTotal Field byNameLe := by
  constructor
  intro a b
  unfold byNameLe
  cases hab : byNameLess a b
  · exact .inr rfl
  · exact .inl (bnLess_asymm hab)

instance : IsTrans Field byNameLe := by
  constructor
  intro a b c hab hbc
  unfold byNameLe at *
  cases hca : byNameLess c a
  · rfl
  · exfalso
    cases hbc2 : byNameLess b c
    · obtain ⟨n1, t1, i1⟩ := And.intro (bnLess_keys hbc2 hbc).1
        (And.intro (bnLess_keys hbc2 hbc).2.2.1 (bnLess_keys hbc2 hbc).2.2.2)
      have e := (bnLess_congr n1 t1 i1 a).1
      rw [hab] at e
      rw [hca] at e
      exact nomatch e
    · have hba := bnLess_trans hbc2 hca
      rw [hab] at hba
      exact nomatch hba

/-! ## The conflict pass on one name run -/

/-- The entries of a list bound to a given name. -/
def filterName (x : String) (l : List Field) : List Field :=
  l.filter (fun f => f.name = x)

theorem filterName_cons_pos {x : String} {f : Field} (h : f.name = x) (l : List Field) :
    filterName x (f :: l) = f :: filterName x l := by
  unfold filterName
  rw [List.filter_cons_of_pos (by simp [h])]

theorem filterName_cons_neg {x : String} {f : Field} (h : f.name ≠ x) (l : List Field) :
    filterName x (f :: l) = filterName x l := by
  unfold filterName
  rw [List.filter_cons_of_neg (by simp [h])]

theorem filterName_append (x : String) (l1 l2 : List Field) :
    filterName x (l1 ++ l2) = filterName x l1 ++ filterName x l2 :=
  List.filter_append l1 l2

theorem filterName_eq_nil {x : String} {l : List Field} :
    filterName x l = [] ↔ ∀ f ∈ l, f.name ≠ x := by
  unfold filterName
  simp

theorem strLt_cases (a b : String) : strLt a b = true ∨ a = b ∨ strLt b a = true := by
  by_cases h : a = b
  · exact .inr (.inl h)
  · rcases strLt_connex h with h2 | h2
    · exact .inl h2
    · exact .inr (.inr h2)

/-- What the conflict pass leaves of a name run whose first (name-sorted)
member is `g` and whose remaining members are `rest`: `g` survives alone
when nothing follows, or when `g` is explicitly tagged and everything
after it is untagged; otherwise the whole run is annihilated. -/
def contGroup (g : Field) (rest : List Field) : List Field :=
  if rest = [] then [g]
  else if g.tag = true ∧ ∀ r ∈ rest, r.tag = false then [g] else []

/-- The conflict pass outcome for a whole (possibly empty) name run. -/
def collapseGroup : List Field → List Field
  | [] => []
  | g :: rest => contGroup g rest

theorem contGroup_killed {g f : Field} (l : List Field)
    (h : g.tag = false ∨ f.tag = true) : contGroup g (f :: l) = [] := by
  unfold contGroup
  rw [if_neg (by simp), if_neg ?_]
  rintro ⟨hg, hall⟩
  rcases h with h | h
  · rw [h] at hg; exact nomatch hg
  · have hf := hall f (by simp)
    rw [h] at hf; exact nomatch hf

theorem contGroup_skip {g f : Field} (l : List Field)
    (hg : g.tag = true) (hf : f.tag = false) : contGroup g (f :: l) = contGroup g l := by
  unfold contGroup
  rw [if_neg (by simp)]
  by_cases hl : l = []
  · subst hl
    rw [if_pos ⟨hg, fun r hr => by rcases List.mem_singleton.mp hr with rfl; exact hf⟩,
      if_pos rfl]
  · rw [if_neg hl]
    by_cases hall : ∀ r ∈ l, r.tag = false
    · rw [if_pos ⟨hg, fun r hr => by
        rcases List.mem_cons.mp hr with rfl | hr
        · exact hf
        · exact hall r hr⟩, if_pos ⟨hg, hall⟩]
    · rw [if_neg (fun hh => hall fun r hr => hh.2 r (List.mem_cons_of_mem _ hr)),
        if_neg (fun hh => hall hh.2)]

/-- How the conflict pass treats the entries bound to one name `x`, as a
function of the fold state.  The input is processed in `byName` order, so
all entries bound to `x` are contiguous; the four conjuncts describe the
pass before the run of `x`-entries (tracked name below `x`), inside the
run with the run's first member still last on `out`, inside the run after
annihilation, and after the run. -/
theorem collapse_run (x : String) :
    ∀ fs : List Field,
      List.Pairwise (fun a b => strLt b.name a.name = false) fs →
      ∀ (name0 : String) (out : List Field),
        (∀ f ∈ fs, strLt f.name name0 = false) →
        ((strLt name0 x = true → filterName x out = [] →
            filterName x (List.foldl collapseStep (name0, out) fs).2 =
              collapseGroup (filterName x fs))
         ∧ (name0 = x → filterName x out = [] →
            filterName x (List.foldl collapseStep (name0, out) fs).2 = [])
         ∧ (name0 = x → ∀ (ys : List Field) (g : Field), out = ys ++ [g] → g.name = x →
            filterName x ys = [] →
            filterName x (List.foldl collapseStep (name0, out) fs).2 =
              contGroup g (filterName x fs))
         ∧ (strLt x name0 = true →
            filterName x (List.foldl collapseStep (name0, out) fs).2 = filterName x out)) := by
  intro fs
  induction fs with
  | nil =>
    intro _ name0 out _
    refine ⟨?_, ?_, ?_, ?_⟩
    · intro _ hout
      exact hout
    · intro _ hout
      exact hout
    · intro _ ys g houtd hgx hys
      subst houtd
      rw [List.foldl_nil]
      dsimp only
      rw [filterName_append, hys, filterName_cons_pos hgx]
      rfl
    · intro _
      rfl
  | cons f rest ih =>
    intro hpw name0 out hge
    have hpc := List.pairwise_cons.mp hpw
    have hhead : ∀ r ∈ rest, strLt r.name f.name = false := hpc.1
    have hptail := hpc.2
    have hge0 : strLt f.name name0 = false := hge f (List.mem_cons_self ..)
    have hgeRest : ∀ r ∈ rest, strLt r.name name0 = false :=
      fun r hr => hge r (List.mem_cons_of_mem _ hr)
    by_cases hfn : f.name = name0
    · -- the tracked name repeats: Go's removal branch
      rcases List.eq_nil_or_concat out with rfl | ⟨ys1, g1, rfl⟩
      · have hstep : collapseStep (name0, ([] : List Field)) f = (name0, []) := by
          unfold collapseStep
          rw [if_neg (by simp [hfn])]
          rfl
        have ihh := ih hptail name0 [] hgeRest
        refine ⟨?_, ?_, ?_, ?_⟩
        · intro hlt hout
          have hnx : name0 ≠ x := by
            intro hh; rw [hh, strLt_irrefl] at hlt; exact nomatch hlt
          have hfx : f.name ≠ x := fun hh => hnx (hfn.symm.trans hh)
          rw [List.foldl_cons, hstep, filterName_cons_neg hfx]
          exact ihh.1 hlt rfl
        · intro heq _
          rw [List.foldl_cons, hstep]
          exact ihh.2.1 heq rfl
        · intro _ ys g houtd _ _
          exact absurd houtd (by simp)
        · intro hgt
          rw [List.foldl_cons, hstep]
          exact ihh.2.2.2 hgt
      · simp only [List.concat_eq_append]
        have hstep : collapseStep (name0, ys1 ++ [g1]) f =
            if g1.name = name0 ∧ (g1.tag = false ∨ f.tag = true) then (name0, ys1)
            else (name0, ys1 ++ [g1]) := by
          unfold collapseStep
          rw [if_neg (by simp [hfn])]
          rw [List.getLast?_concat]
          dsimp only
          rw [List.dropLast_concat]
        by_cases hT : g1.name = name0 ∧ (g1.tag = false ∨ f.tag = true)
        · have hstep2 : collapseStep (name0, ys1 ++ [g1]) f = (name0, ys1) := by
            rw [hstep, if_pos hT]
          have ihh := ih hptail name0 ys1 hgeRest
          refine ⟨?_, ?_, ?_, ?_⟩
          · intro hlt hout
            have hnx : name0 ≠ x := by
              intro hh; rw [hh, strLt_irrefl] at hlt; exact nomatch hlt
            have hfx : f.name ≠ x := fun hh => hnx (hfn.symm.trans hh)
            rw [filterName_append] at hout
            have hout2 := (List.append_eq_nil.mp hout).1
            rw [List.foldl_cons, hstep2, filterName_cons_neg hfx]
            exact ihh.1 hlt hout2
          · intro heq hout
            rw [filterName_append] at hout
            have hout2 := (List.append_eq_nil.mp hout).1
            rw [List.foldl_cons, hstep2]
            exact ihh.2.1 heq hout2
          · intro heq ys g houtd hgx hys
            obtain ⟨rfl, hg⟩ := List.append_inj' houtd rfl
            obtain rfl : g1 = g := by injection hg
            have hfx : f.name = x := hfn.trans heq
            rw [List.foldl_cons, hstep2, filterName_cons_pos hfx,
              contGroup_killed (filterName x rest) hT.2]
            exact ihh.2.1 heq hys
          · intro hgt
            have hnx : name0 ≠ x := by
              intro hh; rw [hh, strLt_irrefl] at hgt; exact nomatch hgt
            have hg1x : g1.name ≠ x := fun hh => hnx (hT.1.symm.trans hh)
            rw [List.foldl_cons, hstep2, ihh.2.2.2 hgt,
              filterName_append, filterName_cons_neg hg1x]
            simp [filterName]
        · have hstep2 : collapseStep (name0, ys1 ++ [g1]) f = (name0, ys1 ++ [g1]) := by
            rw [hstep, if_neg hT]
          have ihh := ih hptail name0 (ys1 ++ [g1]) hgeRest
          refine ⟨?_, ?_, ?_, ?_⟩
          · intro hlt hout
            have hnx : name0 ≠ x := by
              intro hh; rw [hh, strLt_irrefl] at hlt; exact nomatch hlt
            have hfx : f.name ≠ x := fun hh => hnx (hfn.symm.trans hh)
            rw [List.foldl_cons, hstep2, filterName_cons_neg hfx]
            exact ihh.1 hlt hout
          · intro heq hout
            rw [List.foldl_cons, hstep2]
            exact ihh.2.1 heq hout
          · intro heq ys g houtd hgx hys
            obtain ⟨rfl, hg⟩ := List.append_inj' houtd rfl
            obtain rfl : g1 = g := by injection hg
            have h1 : g1.name = name0 := hgx.trans heq.symm
            have h2 : ¬ (g1.tag = false ∨ f.tag = true) := fun hh => hT ⟨h1, hh⟩
            push_neg at h2
            have hgtag : g1.tag = true := by
              cases hgb : g1.tag
              · exact absurd hgb h2.1
              · rfl
            have hftag : f.tag = false := by
              cases hfb : f.tag
              · rfl
              · exact absurd hfb h2.2
            have hfx : f.name = x := hfn.trans heq
            rw [List.foldl_cons, hstep2, filterName_cons_pos hfx,
              contGroup_skip (filterName x rest) hgtag hftag]
            exact ihh.2.2.1 heq ys1 g1 rfl hgx hys
          · intro hgt
            rw [List.foldl_cons, hstep2]
            exact ihh.2.2.2 hgt
    · -- a new name starts: Go's append branch
      have hstep : collapseStep (name0, out) f = (f.name, out ++ [f]) := by
        unfold collapseStep
        rw [if_pos hfn]
      have ihh := ih hptail f.name (out ++ [f]) hhead
      refine ⟨?_, ?_, ?_, ?_⟩
      · intro hlt hout
        rcases strLt_cases f.name x with hfa | hfa | hfa
        · have hfx : f.name ≠ x := by
            intro hh; rw [hh, strLt_irrefl] at hfa; exact nomatch hfa
          rw [List.foldl_cons, hstep, filterName_cons_neg hfx]
          refine (ihh.1 hfa ?_)
          rw [filterName_append, hout, filterName_cons_neg hfx]
          rfl
        · rw [List.foldl_cons, hstep, filterName_cons_pos hfa]
          exact ihh.2.2.1 hfa out f rfl hfa hout
        · have hfx : f.name ≠ x := by
            intro hh; rw [hh, strLt_irrefl] at hfa; exact nomatch hfa
          have hrest : filterName x rest = [] := filterName_eq_nil.mpr (fun r hr hh => by
            have h2 := hhead r hr
            rw [hh] at h2
            rw [h2] at hfa
            exact nomatch hfa)
          rw [List.foldl_cons, hstep, filterName_cons_neg hfx, hrest, ihh.2.2.2 hfa,
            filterName_append, hout, filterName_cons_neg hfx]
          rfl
      · intro heq hout
        have hfx : f.name ≠ x := fun hh => hfn (hh.trans heq.symm)
        have hxf : strLt x f.name = true := by
          rcases strLt_cases f.name x with h2 | h2 | h2
          · rw [heq] at hge0
            rw [hge0] at h2
            exact nomatch h2
          · exact absurd h2 hfx
          · exact h2
        rw [List.foldl_cons, hstep, ihh.2.2.2 hxf,
          filterName_append, hout, filterName_cons_neg hfx]
        rfl
      · intro heq ys g houtd hgx hys
        have hfx : f.name ≠ x := fun hh => hfn (hh.trans heq.symm)
        have hxf : strLt x f.name = true := by
          rcases strLt_cases f.name x with h2 | h2 | h2
          · rw [heq] at hge0
            rw [hge0] at h2
            exact nomatch h2
          · exact absurd h2 hfx
          · exact h2
        have hrest : filterName x rest = [] := filterName_eq_nil.mpr (fun r hr hh => by
          have h2 := hhead r hr
          rw [hh] at h2
          rw [h2] at hxf
          exact nomatch hxf)
        subst houtd
        rw [List.foldl_cons, hstep, ihh.2.2.2 hxf, filterName_cons_neg hfx, hrest,
          filterName_append, filterName_append, hys, filterName_cons_pos hgx,
          filterName_cons_neg hfx]
        rfl
      · intro hgt
        have hfx : f.name ≠ x := by
          intro hh
          rw [hh] at hge0
          rw [hge0] at hgt
          exact nomatch hgt
        have hxf : strLt x f.name = true := by
          rcases strLt_cases f.name x with h2 | h2 | h2
          · have h3 := strLt_trans h2 hgt
            rw [hge0] at h3
            exact nomatch h3
          · exact absurd h2 hfx
          · exact h2
        rw [List.foldl_cons, hstep, ihh.2.2.2 hxf, filterName_append,
          filterName_cons_neg hfx]
        simp [filterName]

theorem nameLe_of_byNameLe {a b : Field} (h : byNameLe a b) : strLt b.name a.name = false := by
  unfold byNameLe at h
  by_cases hn : b.name = a.name
  · rw [hn]
    exact strLt_irrefl _
  · rw [bn_eval_name hn] at h
    exact h

/-- The empty string is strictly below every other string. -/
theorem strLt_blank_lt {x : String} (hx : x ≠ "") : strLt "" x = true := by
  unfold strLt
  cases hd : x.data with
  | nil => exact absurd (str_ext hd) hx
  | cons c cs => rfl

theorem filterName_perm {l1 l2 : List Field} (h : l1.Perm l2) (x : String) :
    (filterName x l1).Perm (filterName x l2) :=
  List.Perm.filter _ h

/-- The conflict pass on a `byName`-sorted list keeps, of the entries bound
to a nonempty name `x`, exactly the survivors of that run. -/
theorem collapse_filterName {x : String} (hx : x ≠ "") (fs : List Field)
    (hs : List.Pairwise byNameLe fs) :
    filterName x (collapse fs) = collapseGroup (filterName x fs) := by
  have hpw : List.Pairwise (fun a b => strLt b.name a.name = false) fs :=
    hs.imp (fun h => nameLe_of_byNameLe h)
  exact (collapse_run x fs hpw "" [] (fun f _ => strLt_blank f.name)).1
    (strLt_blank_lt hx) rfl

/-- Entries with an empty bound name never survive the conflict pass. -/
theorem collapse_filterName_blank (fs : List Field)
    (hs : List.Pairwise byNameLe fs) :
    filterName "" (collapse fs) = [] := by
  have hpw : List.Pairwise (fun a b => strLt b.name a.name = false) fs :=
    hs.imp (fun h => nameLe_of_byNameLe h)
  exact (collapse_run "" fs hpw "" [] (fun f _ => strLt_blank f.name)).2.1 rfl rfl

theorem collapseGroup_length (l : List Field) : (collapseGroup l).length ≤ 1 := by
  cases l with
  | nil => simp [collapseGroup]
  | cons g rest =>
    show (contGroup g rest).length ≤ 1
    unfold contGroup
    by_cases h1 : rest = []
    · simp [h1]
    · rw [if_neg h1]
      by_cases h2 : g.tag = true ∧ ∀ r ∈ rest, r.tag = false
      · rw [if_pos h2]
        simp
      · rw [if_neg h2]
        simp

/-- A list has no repeated bound names when each name occurs at most once. -/
theorem nodup_map_of_filterName_le_one {l : List Field}
    (h : ∀ x, (filterName x l).length ≤ 1) : (l.map Field.name).Nodup := by
  induction l with
  | nil => simp
  | cons f rest ih =>
    simp only [List.map_cons, List.nodup_cons]
    constructor
    · intro hmem
      obtain ⟨g, hg, hgname⟩ := List.mem_map.mp hmem
      have hcnt := h f.name
      rw [filterName_cons_pos rfl] at hcnt
      have hmem2 : g ∈ filterName f.name rest := by
        unfold filterName
        exact List.mem_filter.mpr ⟨hg, by simp [hgname]⟩
      have hone : 0 < (filterName f.name rest).length :=
        List.length_pos.mpr (List.ne_nil_of_mem hmem2)
      rw [List.length_cons] at hcnt
      omega
    · apply ih
      intro x
      have hx := h x
      by_cases hfx : f.name = x
      · rw [filterName_cons_pos hfx] at hx
        rw [List.length_cons] at hx
        omega
      · rw [filterName_cons_neg hfx] at hx
        exact hx

/-- C5: the FieldSet produced by `typeFields` has pairwise distinct bound
names — the conflict pass keeps at most one entry per name, and the final
`byIndex` sort only permutes. -/
theorem typeFields_names_nodup (env : Env) (t : Typ) :
    ((typeFields env t).map Field.name).Nodup := by
  have hsorted : List.Pairwise byNameLe (sortByName (collectFields env t)) :=
    List.sorted_insertionSort byNameLe (collectFields env t)
  have hperm : (typeFields env t).Perm (collapse (sortByName (collectFields env t))) :=
    List.perm_insertionSort byIndexLe _
  apply nodup_map_of_filterName_le_one
  intro x
  have hlen : (filterName x (typeFields env t)).length =
      (filterName x (collapse (sortByName (collectFields env t)))).length :=
    (filterName_perm hperm x).length_eq
  rw [hlen]
  by_cases hx : x = ""
  · subst hx
    rw [collapse_filterName_blank _ hsorted]
    simp
  · rw [collapse_filterName hx _ hsorted]
    exact collapseGroup_length _

/-! ## Claims about shadowing, tag precedence and annihilation -/

theorem filterName_name {x : String} {l : List Field} {f : Field}
    (h : f ∈ filterName x l) : f.name = x :=
  of_decide_eq_true (List.mem_filter.mp h).2

theorem perm_pair {l : List Field} {a b : Field} (h : l.Perm [a, b]) :
    l = [a, b] ∨ l = [b, a] := by
  obtain ⟨u, v, rfl⟩ := List.length_eq_two.mp (h.length_eq.trans rfl)
  rcases List.mem_cons.mp (h.mem_iff.mp (List.mem_cons_self ..)) with he | he
  · subst he
    left
    have h2 := h.cons_inv
    rw [List.perm_singleton.mp h2]
  · rcases List.mem_cons.mp he with he2 | he2
    · subst he2
      right
      have h3 : (u :: v :: []).Perm [u, a] := h.trans (List.Perm.swap u a [])
      have h4 := h3.cons_inv
      rw [List.perm_singleton.mp h4]
    · exact absurd he2 (by simp)

/-- C3: whenever resolution collects exactly two candidate fields for a
bound name `y`, both untagged — as happens when two record types embedded
at the same depth each contribute an untagged field declared `y` and
nothing else binds `y` — the final FieldSet has no entry bound to `y`.
The resolver is a total function, so resolution finishes with no error. -/
theorem same_depth_untagged_pair_annihilates (env : Env) (t : Typ) (y : String)
    (f1 f2 : Field) (hy : y ≠ "")
    (hcand : filterName y (collectFields env t) = [f1, f2])
    (ht1 : f1.tag = false) (ht2 : f2.tag = false) :
    filterName y (typeFields env t) = [] := by
  have hsorted : List.Pairwise byNameLe (sortByName (collectFields env t)) :=
    List.sorted_insertionSort byNameLe (collectFields env t)
  have hperm1 : (filterName y (sortByName (collectFields env t))).Perm [f1, f2] := by
    rw [← hcand]
    exact filterName_perm (List.perm_insertionSort byNameLe _) y
  have hcol : filterName y (collapse (sortByName (collectFields env t))) = [] := by
    rw [collapse_filterName hy _ hsorted]
    rcases perm_pair hperm1 with he | he <;> rw [he]
    · exact contGroup_killed [] (Or.inl ht1)
    · exact contGroup_killed [] (Or.inl ht2)
  have hperm2 := filterName_perm
    (List.perm_insertionSort byIndexLe (collapse (sortByName (collectFields env t)))) y
  rw [hcol] at hperm2
  exact hperm2.eq_nil

/-- A root embedding `A` and `B` at depth one, each declaring untagged `Y`. -/
def envC3 : Env :=
  [("Root", [⟨"A", "", true, "", Typ.named "A"⟩, ⟨"B", "", true, "", Typ.named "B"⟩]),
   ("A", [⟨"Y", "", false, "", intT⟩]),
   ("B", [⟨"Y", "", false, "", intT⟩])]

/-- Witness for C3 at the same-depth double-embedding scenario. -/
theorem same_depth_untagged_pair_annihilates_w :
    filterName "Y" (typeFields envC3 (.named "Root")) = [] :=
  same_depth_untagged_pair_annihilates envC3 (.named "Root") "Y"
    ⟨"A", "Y", "Y", false, [0, 0], intT⟩ ⟨"B", "Y", "Y", false, [1, 0], intT⟩
    (by decide) rfl rfl rfl

/-- `Root{X int; E}` with `E{F int sql:"X"}`: a shallower untagged and a
deeper explicitly tagged candidate for `"X"`. -/
def envC2 : Env :=
  [("Root", [⟨"X", "", false, "", intT⟩, ⟨"E", "", true, "", Typ.named "E"⟩]),
   ("E", [⟨"F", "", false, "X", intT⟩])]

/-- C2 counterexample: with exactly the two candidates of the claim — the
untagged `X` at depth 1 and the explicitly tagged `F` at depth 2 — no
field bound to `"X"` appears in the final FieldSet at all, so the deeper
explicitly tagged field is not the sole survivor. -/
theorem deep_tagged_not_sole_survivor :
    filterName "X" (collectFields envC2 (.named "Root")) =
      [⟨"Root", "X", "X", false, [0], intT⟩, ⟨"E", "X", "F", true, [1, 0], intT⟩]
    ∧ ¬ ∃ f ∈ typeFields envC2 (.named "Root"), f.name = "X" :=
  ⟨rfl, by decide⟩

/-- C2 amended: with exactly two candidates for a bound name, a shallower
untagged one and a deeper explicitly tagged one, the conflict pass
annihilates both: the name is absent from the final FieldSet. -/
theorem shallow_untagged_deep_tagged_annihilate (env : Env) (t : Typ) (x : String)
    (a b : Field) (hx : x ≠ "")
    (hcand : filterName x (collectFields env t) = [a, b])
    (hta : a.tag = false) (_htb : b.tag = true)
    (hlen : a.index.length < b.index.length) :
    filterName x (typeFields env t) = [] := by
  have hsorted : List.Pairwise byNameLe (sortByName (collectFields env t)) :=
    List.sorted_insertionSort byNameLe (collectFields env t)
  have hsf : List.Pairwise byNameLe (filterName x (sortByName (collectFields env t))) :=
    List.Pairwise.sublist (List.filter_sublist _) hsorted
  have hperm1 : (filterName x (sortByName (collectFields env t))).Perm [a, b] := by
    rw [← hcand]
    exact filterName_perm (List.perm_insertionSort byNameLe _) x
  have hna : a.name = x := filterName_name (by rw [hcand]; exact List.mem_cons_self ..)
  have hnb : b.name = x := filterName_name (by rw [hcand]; simp)
  have horder : filterName x (sortByName (collectFields env t)) = [a, b] := by
    rcases perm_pair hperm1 with he | he
    · exact he
    · exfalso
      rw [he] at hsf
      have hba : byNameLe b a := (List.pairwise_cons.mp hsf).1 a (by simp)
      unfold byNameLe at hba
      rw [bn_eval_len (hna.trans hnb.symm) (by omega)] at hba
      simp at hba
      omega
  have hcol : filterName x (collapse (sortByName (collectFields env t))) = [] := by
    rw [collapse_filterName hx _ hsorted, horder]
    exact contGroup_killed [] (Or.inl hta)
  have hperm2 := filterName_perm
    (List.perm_insertionSort byIndexLe (collapse (sortByName (collectFields env t)))) x
  rw [hcol] at hperm2
  exact hperm2.eq_nil

/-- Witness for the amended C2 at the `envC2` scenario. -/
theorem shallow_untagged_deep_tagged_annihilate_w :
    filterName "X" (typeFields envC2 (.named "Root")) = [] :=
  shallow_untagged_deep_tagged_annihilate envC2 (.named "Root") "X"
    ⟨"Root", "X", "X", false, [0], intT⟩ ⟨"E", "X", "F", true, [1, 0], intT⟩
    (by decide) rfl rfl rfl (by decide)

/-- `Root{X int; E}` with `E{X int}`: an untagged root field shadowing an
untagged embedded one. -/
def envC1 : Env :=
  [("Root", [⟨"X", "", false, "", intT⟩, ⟨"E", "", true, "", Typ.named "E"⟩]),
   ("E", [⟨"X", "", false, "", intT⟩])]

/-- C1 counterexample: the field `X` declared directly on `Root` does not
win over the field `X` reachable only through the embedded `E` — the
conflict pass annihilates both, and the final FieldSet has no entry with
bound name `"X"` at all. -/
theorem root_shadowing_annihilates :
    filterName "X" (collectFields envC1 (.named "Root")) =
      [⟨"Root", "X", "X", false, [0], intT⟩, ⟨"E", "X", "X", false, [1, 0], intT⟩]
    ∧ ¬ ∃ f ∈ typeFields envC1 (.named "Root"), f.name = "X" :=
  ⟨rfl, by decide⟩

/-- C1 amended: a field declared directly on the root type (path length 1)
with bound name `x` is the unique final entry for `x` provided it is
explicitly tagged and every other candidate for `x` — each reachable only
through embedded types, hence untagged at depth ≥ 2 — carries no explicit
tag; this holds regardless of the traversal order of the embedded types.
(An untagged root field is instead annihilated by any deeper candidate:
see the counterexample.) -/
theorem root_tagged_field_wins (env : Env) (t : Typ) (x : String)
    (f1 : Field) (rest : List Field) (hx : x ≠ "")
    (hcand : filterName x (collectFields env t) = f1 :: rest)
    (htag : f1.tag = true) (hlen : f1.index.length = 1)
    (hrest : ∀ g ∈ rest, g.tag = false ∧ 2 ≤ g.index.length) :
    filterName x (typeFields env t) = [f1] := by
  have hsorted : List.Pairwise byNameLe (sortByName (collectFields env t)) :=
    List.sorted_insertionSort byNameLe (collectFields env t)
  have hsf : List.Pairwise byNameLe (filterName x (sortByName (collectFields env t))) :=
    List.Pairwise.sublist (List.filter_sublist _) hsorted
  have hperm1 : (filterName x (sortByName (collectFields env t))).Perm (f1 :: rest) := by
    rw [← hcand]
    exact filterName_perm (List.perm_insertionSort byNameLe _) x
  obtain ⟨h, tl, hht⟩ : ∃ h tl, filterName x (sortByName (collectFields env t)) = h :: tl := by
    cases hc : filterName x (sortByName (collectFields env t)) with
    | nil =>
      rw [hc] at hperm1
      have := hperm1.length_eq
      simp at this
    | cons h tl => exact ⟨h, tl, rfl⟩
  have hnf : f1.name = x := filterName_name (by rw [hcand]; exact List.mem_cons_self ..)
  have hh : h = f1 := by
    have hmem : h ∈ f1 :: rest := hperm1.mem_iff.mp (by rw [hht]; exact List.mem_cons_self ..)
    rcases List.mem_cons.mp hmem with he | hmem2
    · exact he
    · exfalso
      have hgl := hrest h hmem2
      have hf1mem : f1 ∈ h :: tl := by
        rw [← hht]
        exact hperm1.mem_iff.mpr (List.mem_cons_self ..)
      have hnh : h.name = x := filterName_name (by rw [hht]; exact List.mem_cons_self ..)
      have hlt : byNameLess f1 h = true := by
        rw [bn_eval_len (hnf.trans hnh.symm) (by omega)]
        simp only [decide_eq_true_eq]
        omega
      rcases List.mem_cons.mp hf1mem with he2 | hf1tl
      · rw [he2] at htag
        rw [hgl.1] at htag
        exact nomatch htag
      · rw [hht] at hsf
        have hle := (List.pairwise_cons.mp hsf).1 f1 hf1tl
        unfold byNameLe at hle
        rw [hle] at hlt
        exact nomatch hlt
  subst hh
  rw [hht] at hperm1
  have htlperm : tl.Perm rest := hperm1.cons_inv
  have hcol : filterName x (collapse (sortByName (collectFields env t))) = [h] := by
    rw [collapse_filterName hx _ hsorted, hht]
    show contGroup h tl = [h]
    unfold contGroup
    by_cases htl : tl = []
    · rw [if_pos htl]
    · rw [if_neg htl,
        if_pos ⟨htag, fun r hr => (hrest r (htlperm.mem_iff.mp hr)).1⟩]
  have hperm2 := filterName_perm
    (List.perm_insertionSort byIndexLe (collapse (sortByName (collectFields env t)))) x
  rw [hcol] at hperm2
  exact List.perm_singleton.mp hperm2

/-- `Root{X int sql:"x"; E}` with `E{x int}`: an explicitly tagged root
field above an untagged embedded candidate for the same bound name. -/
def envC1w : Env :=
  [("Root", [⟨"X", "", false, "x", intT⟩, ⟨"E", "", true, "", Typ.named "E"⟩]),
   ("E", [⟨"x", "", false, "", intT⟩])]

/-- Witness for the amended C1: the tagged root field survives alone. -/
theorem root_tagged_field_wins_w :
    filterName "x" (typeFields envC1w (.named "Root")) =
      [⟨"Root", "x", "X", true, [0], intT⟩] :=
  root_tagged_field_wins envC1w (.named "Root") "x"
    ⟨"Root", "x", "X", true, [0], intT⟩ [⟨"E", "x", "x", false, [1, 0], intT⟩]
    (by decide) rfl rfl rfl (by decide)

end Sqlstruct
